import Mathlib

/-!
Shallow embedding of the interactive mind-map component (MindMap.tsx):
the identifier assigner addId, the layout engine calculatePositions and
flatten, the collapse-state toggle toggleNode, and the pointer and wheel
gesture handlers.  Coordinates are modelled as rationals: every numeric
operation of the layout code (addition, multiplication by constants and
halving of even sums) is exact on the values that actually occur, so the
rational semantics agrees with the JavaScript number semantics on them.
Math.sqrt is modelled as an arbitrary function parameter sqrtFn, since
square roots of rationals need not be rational; none of the verified
properties depend on the values this function returns.
-/

namespace VoiceMindMap

/-- Source tree node: label plus ordered children.  An absent children
field in the source is the empty list here; the optional id field of the
source interface is omitted because addId overwrites every id. -/
inductive MindMapNode where
  | node (label : String) (children : List MindMapNode)
deriving Repr

/-- Tree node after the identifier assigner has run: id always present. -/
inductive IdNode where
  | node (id : String) (label : String) (children : List IdNode)
deriving Repr

def IdNode.rootId : IdNode → String
  | .node i _ _ => i

def IdNode.rootChildren : IdNode → List IdNode
  | .node _ _ cs => cs

mutual
/-- Embedding of addId: id is the dash-separated path of child indices. -/
def addId : MindMapNode → String → IdNode
  | .node label children, path => .node path label (addIdList children path 0)
termination_by structural t => t

def addIdList : List MindMapNode → String → Nat → List IdNode
  | [], _, _ => []
  | c :: cs, path, i =>
      addId c (path ++ "-" ++ toString i) :: addIdList cs path (i + 1)
termination_by structural l => l
end

-- Layout constants from the component.
def nodeWidth : ℚ := 160
def nodeHeight : ℚ := 50
def verticalGap : ℚ := 30
def horizontalGap : ℚ := 200

/-- Intermediate positioned node built by calculatePositions (the
duck-typed record with the childrenNodes array in the source). -/
inductive PosNode where
  | mk (id : String) (label : String) (x y : ℚ)
       (hasChildren isCollapsed : Bool) (childrenNodes : List PosNode)

def PosNode.id : PosNode → String
  | .mk i _ _ _ _ _ _ => i

def PosNode.label : PosNode → String
  | .mk _ l _ _ _ _ _ => l

def PosNode.x : PosNode → ℚ
  | .mk _ _ x _ _ _ _ => x

def PosNode.y : PosNode → ℚ
  | .mk _ _ _ y _ _ _ => y

def PosNode.hasChildren : PosNode → Bool
  | .mk _ _ _ _ h _ _ => h

def PosNode.isCollapsed : PosNode → Bool
  | .mk _ _ _ _ _ c _ => c

def PosNode.childrenNodes : PosNode → List PosNode
  | .mk _ _ _ _ _ _ k => k

mutual
/-- Embedding of calculatePositions: the mutable yOffset cell becomes
explicit state passing (input cursor in, output cursor out). -/
def calculatePositions (collapsedIds : Finset String) :
    IdNode → Nat → ℚ → PosNode × ℚ
  | .node id label children, depth, yOffset =>
    let isCollapsed : Bool := decide (id ∈ collapsedIds)
    let hasChildren : Bool := !children.isEmpty
    if children.isEmpty ∨ id ∈ collapsedIds then
      (.mk id label ((depth : ℚ) * horizontalGap) yOffset hasChildren isCollapsed [],
       yOffset + (nodeHeight + verticalGap))
    else
      let startY := yOffset
      let r := calcPosList collapsedIds children (depth + 1) yOffset
      let endY := r.2 - (nodeHeight + verticalGap)
      (.mk id label ((depth : ℚ) * horizontalGap) ((startY + endY) / 2)
         hasChildren isCollapsed r.1,
       r.2)
termination_by structural t => t

/-- The forEach loop over the children of a node, threading the cursor. -/
def calcPosList (collapsedIds : Finset String) :
    List IdNode → Nat → ℚ → List PosNode × ℚ
  | [], _, yOffset => ([], yOffset)
  | c :: cs, depth, yOffset =>
    let r := calculatePositions collapsedIds c depth yOffset
    let rs := calcPosList collapsedIds cs depth r.2
    (r.1 :: rs.1, rs.2)
termination_by structural l => l
end

/-- Output element of the layout pass (the LayoutNode interface). -/
structure LayoutNode where
  id : String
  label : String
  x : ℚ
  y : ℚ
  px : Option ℚ
  py : Option ℚ
  hasChildren : Bool
  isCollapsed : Bool
deriving DecidableEq, Repr

mutual
/-- Embedding of flatten: emit the node, then its children with the
parent anchor at the right-center edge, skipping children of collapsed
nodes. -/
def flatten : PosNode → Option ℚ → Option ℚ → List LayoutNode
  | .mk id label x y hc ic kids, px, py =>
    { id := id, label := label, x := x, y := y, px := px, py := py,
      hasChildren := hc, isCollapsed := ic } ::
      (if ic then []
       else flattenList kids (some (x + nodeWidth)) (some (y + nodeHeight / 2)))
termination_by structural t => t

def flattenList : List PosNode → Option ℚ → Option ℚ → List LayoutNode
  | [], _, _ => []
  | k :: ks, px, py => flatten k px py ++ flattenList ks px py
termination_by structural l => l
end

/-- The positioned tree built inside the nodes memo. -/
def posTree (data : MindMapNode) (collapsedIds : Finset String) : PosNode :=
  (calculatePositions collapsedIds (addId data "root") 0 0).1

/-- Embedding of the nodes memo: assign ids, position, then flatten. -/
def nodes (data : MindMapNode) (collapsedIds : Finset String) : List LayoutNode :=
  flatten (posTree data collapsedIds) none none

/-- Embedding of toggleNode on the collapsed-ids set. -/
def toggleNode (prev : Finset String) (id : String) : Finset String :=
  if id ∈ prev then prev.erase id else insert id prev

/-! ## Gesture controller -/

/-- The transform state: pan offset and zoom scale. -/
structure Transform where
  x : ℚ
  y : ℚ
  scale : ℚ
deriving DecidableEq, Repr

/-- Initial transform value, also restored by resetView. -/
def initialTransform : Transform := { x := 50, y := 150, scale := 0.8 }

/-- State touched by the pointer and wheel handlers: the transform, the
pointerCache map (an insertion-ordered association list, as a JS Map),
and the lastDist and lastPoint refs. -/
structure GestureState where
  transform : Transform
  pointerCache : List (Nat × ℚ × ℚ)
  lastDist : Option ℚ
  lastPoint : Option (ℚ × ℚ)
deriving DecidableEq, Repr

def initialGestureState : GestureState :=
  { transform := initialTransform, pointerCache := [], lastDist := none,
    lastPoint := none }

/-- Map.set semantics: update in place when the key is present (keeping
insertion order), otherwise append. -/
def cacheSet (cache : List (Nat × ℚ × ℚ)) (pid : Nat) (x y : ℚ) :
    List (Nat × ℚ × ℚ) :=
  if cache.any (fun e => e.1 = pid) then
    cache.map (fun e => if e.1 = pid then (pid, x, y) else e)
  else cache ++ [(pid, x, y)]

/-- Map.delete semantics. -/
def cacheDelete (cache : List (Nat × ℚ × ℚ)) (pid : Nat) :
    List (Nat × ℚ × ℚ) :=
  cache.filter (fun e => e.1 ≠ pid)

/-- Embedding of handlePointerDown (setPointerCapture is pure UI and has
no model state). -/
def handlePointerDown (s : GestureState) (pid : Nat) (ex ey : ℚ) :
    GestureState :=
  { s with pointerCache := cacheSet s.pointerCache pid ex ey,
           lastPoint := some (ex, ey) }

/-- Embedding of handlePointerMove; sqrtFn stands for Math.sqrt. -/
def handlePointerMove (sqrtFn : ℚ → ℚ) (s : GestureState) (pid : Nat)
    (ex ey : ℚ) : GestureState :=
  let cache := cacheSet s.pointerCache pid ex ey
  if cache.length = 1 then
    match s.lastPoint with
    | some lp =>
        let dx := ex - lp.1
        let dy := ey - lp.2
        { s with pointerCache := cache,
                 transform := { s.transform with x := s.transform.x + dx,
                                                 y := s.transform.y + dy },
                 lastPoint := some (ex, ey) }
    | none => { s with pointerCache := cache }
  else if cache.length = 2 then
    match cache with
    | p1 :: p2 :: _ =>
        let dist := sqrtFn ((p2.2.1 - p1.2.1) ^ 2 + (p2.2.2 - p1.2.2) ^ 2)
        let t :=
          match s.lastDist with
          | some ld =>
              { s.transform with
                scale := max 0.1 (min 5 (s.transform.scale * (dist / ld))) }
          | none => s.transform
        { s with pointerCache := cache, transform := t, lastDist := some dist }
    | _ => { s with pointerCache := cache }
  else
    { s with pointerCache := cache }

/-- Embedding of handlePointerUp, which also serves pointer-cancel. -/
def handlePointerUp (s : GestureState) (pid : Nat) : GestureState :=
  let cache := cacheDelete s.pointerCache pid
  { s with pointerCache := cache,
           lastDist := if cache.length < 2 then none else s.lastDist,
           lastPoint := if cache.length = 0 then none else s.lastPoint }

/-- Embedding of handleWheel. -/
def handleWheel (s : GestureState) (deltaY : ℚ) : GestureState :=
  let scaleFactor := 1 - deltaY * 0.001
  { s with transform :=
      { s.transform with
        scale := max 0.1 (min 5 (s.transform.scale * scaleFactor)) } }

/-- The low-level events the component receives. -/
inductive GestureEvent where
  | pointerDown (pid : Nat) (x y : ℚ)
  | pointerMove (pid : Nat) (x y : ℚ)
  | pointerUp (pid : Nat)
  | pointerCancel (pid : Nat)
  | wheel (deltaY : ℚ)
deriving DecidableEq, Repr

/-- Event dispatch, exactly as the svg element wires the handlers
(onPointerCancel is bound to handlePointerUp). -/
def step (sqrtFn : ℚ → ℚ) (s : GestureState) : GestureEvent → GestureState
  | .pointerDown pid x y => handlePointerDown s pid x y
  | .pointerMove pid x y => handlePointerMove sqrtFn s pid x y
  | .pointerUp pid => handlePointerUp s pid
  | .pointerCancel pid => handlePointerUp s pid
  | .wheel dY => handleWheel s dY

/-- Run a whole event sequence in arrival order. -/
def runEvents (sqrtFn : ℚ → ℚ) (s : GestureState)
    (es : List GestureEvent) : GestureState :=
  es.foldl (step sqrtFn) s

/-! ## Derived notions used to state the properties -/

mutual
/-- All nodes of a positioned tree, in pre-order. -/
def subnodes : PosNode → List PosNode
  | .mk i l x y hc ic kids => .mk i l x y hc ic kids :: subnodesList kids
termination_by structural t => t

def subnodesList : List PosNode → List PosNode
  | [] => []
  | k :: ks => subnodes k ++ subnodesList ks
termination_by structural l => l
end

mutual
/-- The y of the first node of the subtree that consumed a cursor slot
(the first descendant laid out as a leaf: childless or collapsed). -/
def firstLeafY : PosNode → ℚ
  | .mk _ _ _ y _ _ [] => y
  | .mk _ _ _ _ _ _ (k :: _) => firstLeafY k
termination_by structural t => t
end

mutual
/-- The y of the last node of the subtree that consumed a cursor slot. -/
def lastLeafY : PosNode → ℚ
  | .mk _ _ _ y _ _ kids => lastLeafYList y kids
termination_by structural t => t

def lastLeafYList : ℚ → List PosNode → ℚ
  | y, [] => y
  | _, k :: ks => lastLeafYList (lastLeafY k) ks
termination_by structural _ l => l
end

mutual
/-- Every id occurring in an identified tree, in pre-order. -/
def allIds : IdNode → List String
  | .node i _ cs => i :: allIdsList cs
termination_by structural t => t

def allIdsList : List IdNode → List String
  | [] => []
  | c :: cs => allIds c ++ allIdsList cs
termination_by structural l => l
end

mutual
/-- Ids of the nodes the layout emits: a node is listed iff none of its
ancestors is collapsed (the collapsed node itself is still listed). -/
def visibleIds (S : Finset String) : IdNode → List String
  | .node i _ cs => i :: (if i ∈ S then [] else visibleIdsList S cs)
termination_by structural t => t

def visibleIdsList (S : Finset String) : List IdNode → List String
  | [] => []
  | c :: cs => visibleIds S c ++ visibleIdsList S cs
termination_by structural l => l
end

mutual
/-- Every subtree of an identified tree, in pre-order. -/
def subtreesOf : IdNode → List IdNode
  | .node i l cs => .node i l cs :: subtreesList cs
termination_by structural t => t

def subtreesList : List IdNode → List IdNode
  | [] => []
  | c :: cs => subtreesOf c ++ subtreesList cs
termination_by structural l => l
end

/-- Pure tree shape, forgetting labels: two source trees have the same
shape iff they have the same positions in the same child order. -/
inductive TreeShape where
  | node (children : List TreeShape)

mutual
def shape : MindMapNode → TreeShape
  | .node _ cs => .node (shapeList cs)
termination_by structural t => t

def shapeList : List MindMapNode → List TreeShape
  | [] => []
  | c :: cs => shape c :: shapeList cs
termination_by structural l => l
end

mutual
/-- The id stored at a position (a path of child indices) of an
identified tree, when the position exists. -/
def idAt : IdNode → List Nat → Option String
  | .node i _ _, [] => some i
  | .node _ _ cs, k :: q => idAtList cs k q
termination_by structural t => t

def idAtList : List IdNode → Nat → List Nat → Option String
  | [], _, _ => none
  | c :: _, 0, q => idAt c q
  | _ :: cs, k + 1, q => idAtList cs k q
termination_by structural l => l
end

/-- The id addId assigns to the node at path q below base path p. -/
def pathId (p : String) (q : List Nat) : String :=
  q.foldl (fun s i => s ++ "-" ++ toString i) p

/-- Character list of the base-10 numeral, most significant digit first;
used to reason about Nat.repr. -/
def dRepr (n : Nat) : List Char :=
  if n = 0 then ['0'] else ((Nat.digits 10 n).map Nat.digitChar).reverse

/-- Character encoding of a path suffix as appended by addId. -/
def encodeSuffix : List Nat → List Char
  | [] => []
  | i :: q => '-' :: ((Nat.repr i).data ++ encodeSuffix q)

mutual
/-- All positions (paths of child indices) of a source tree. -/
def pathsOf : MindMapNode → List (List Nat)
  | .node _ cs => [] :: pathsList cs 0
termination_by structural t => t

def pathsList : List MindMapNode → Nat → List (List Nat)
  | [], _ => []
  | c :: cs, i => (pathsOf c).map (i :: ·) ++ pathsList cs (i + 1)
termination_by structural l => l
end

/-- Intrinsic well-formedness of a positioned node: center formula when
expanded, no overlap between consecutive children, no recorded children
when collapsed, nonnegative x, and y inside the leaf span. -/
def nodeGood (q : PosNode) : Prop :=
  (q.hasChildren = true → q.isCollapsed = false →
    q.y = (firstLeafY q + lastLeafY q) / 2) ∧
  List.Pairwise (fun a b => a.y + (nodeHeight + verticalGap) ≤ b.y)
    q.childrenNodes ∧
  (q.isCollapsed = true → q.childrenNodes = []) ∧
  0 ≤ q.x ∧ firstLeafY q ≤ q.y ∧ q.y ≤ lastLeafY q

/-- The centering property exactly as the specification states it: the y
of an expanded parent is the average of the y of its first child and the
y of its last child. -/
def claimedCentering (data : MindMapNode) (S : Finset String) : Prop :=
  ∀ q ∈ subnodes (posTree data S),
    q.hasChildren = true → q.isCollapsed = false →
    ∀ c₁ cₙ, q.childrenNodes.head? = some c₁ →
      q.childrenNodes.getLast? = some cₙ → q.y = (c₁.y + cₙ.y) / 2

/-- Concrete tree used for counterexamples and witnesses: a root with an
internal first child (two grandchildren) and a leaf second child. -/
def cexTree : MindMapNode :=
  .node "r" [.node "a" [.node "a1" [], .node "a2" []], .node "b" []]

/-- Event sequence of the pinch-baseline property: two pointers pinch at
distance 100, the first lifts, and a third lands. -/
def pinchTrace : List GestureEvent :=
  [.pointerDown 1 0 0, .pointerDown 2 100 0, .pointerMove 2 100 0,
   .pointerUp 1, .pointerDown 3 0 0]

/-- A state in the middle of a one-pointer drag, for concrete checks. -/
def dragState : GestureState :=
  { transform := initialTransform, pointerCache := [],
    lastDist := none, lastPoint := some (1, 2) }

/-- A state in the middle of a two-pointer pinch, for concrete checks. -/
def pinchState : GestureState :=
  { transform := initialTransform,
    pointerCache := [(1, 0, 0), (2, 100, 0)],
    lastDist := some 100, lastPoint := none }

/-- Full layout invariant of one calculatePositions call at cursor y0:
the cursor advances by at least one slot, the first and last leaf rows
of the subtree are the entry cursor and the final cursor minus one slot,
and every node of the subtree lies in the consumed span and is
well-formed. -/
def spanOk (S : Finset String) (t : IdNode) : Prop :=
  ∀ (d : Nat) (y0 : ℚ),
    y0 + (nodeHeight + verticalGap) ≤ (calculatePositions S t d y0).2 ∧
    firstLeafY (calculatePositions S t d y0).1 = y0 ∧
    lastLeafY (calculatePositions S t d y0).1 =
      (calculatePositions S t d y0).2 - (nodeHeight + verticalGap) ∧
    ∀ q ∈ subnodes (calculatePositions S t d y0).1,
      (y0 ≤ q.y ∧
        q.y ≤ (calculatePositions S t d y0).2 - (nodeHeight + verticalGap)) ∧
      nodeGood q

/-! ## Gesture lemmas -/

theorem clamp_mem_Icc (v : ℚ) : max 0.1 (min 5 v) ∈ Set.Icc (0.1 : ℚ) 5 :=
  ⟨le_max_left _ _, max_le (by norm_num) (min_le_left _ _)⟩

theorem step_scale_mem (sqrtFn : ℚ → ℚ) (s : GestureState) (e : GestureEvent)
    (h : s.transform.scale ∈ Set.Icc (0.1 : ℚ) 5) :
    (step sqrtFn s e).transform.scale ∈ Set.Icc (0.1 : ℚ) 5 := by
  cases e with
  | pointerDown pid x y => simpa [step, handlePointerDown] using h
  | pointerUp pid => simpa [step, handlePointerUp] using h
  | pointerCancel pid => simpa [step, handlePointerUp] using h
  | wheel dY => exact clamp_mem_Icc _
  | pointerMove pid x y =>
      simp only [step, handlePointerMove]
      split
      · cases s.lastPoint <;> simpa using h
      · split
        · split
          · cases s.lastDist with
            | none => simpa using h
            | some ld => exact clamp_mem_Icc _
          · simpa using h
        · simpa using h

theorem runEvents_scale_mem (sqrtFn : ℚ → ℚ) (es : List GestureEvent) :
    ∀ s : GestureState, s.transform.scale ∈ Set.Icc (0.1 : ℚ) 5 →
      (runEvents sqrtFn s es).transform.scale ∈ Set.Icc (0.1 : ℚ) 5 := by
  induction es with
  | nil => intro s h; simpa [runEvents] using h
  | cons e es ih =>
      intro s h
      simpa [runEvents, List.foldl_cons] using
        ih (step sqrtFn s e) (step_scale_mem sqrtFn s e h)

/-- C6: starting from the initial transform scale 0.8, any sequence of
pointer and wheel events, with arbitrary pinch factors (sqrtFn and hence
the distance ratio is arbitrary) and arbitrary wheel deltas (including
deltas making the wheel factor nonpositive), leaves scale in
[0.1, 5.0]. -/
theorem zoom_scale_clamped (sqrtFn : ℚ → ℚ) (events : List GestureEvent) :
    (runEvents sqrtFn initialGestureState events).transform.scale ∈
      Set.Icc (0.1 : ℚ) 5 :=
  runEvents_scale_mem sqrtFn events initialGestureState
    (by norm_num [initialGestureState, initialTransform])

/-- C5: in the trace down(A), down(B), move at distance 100, up(A),
down(C), the recorded pinch distance is cleared by the release, the next
two-pointer move applies no zoom (the transform is still the initial
one) and only records the fresh distance 50 as a new baseline; in
general, a pointer release leaving fewer than two active pointers clears
the recorded pinch distance. -/
theorem pinch_baseline_reset (sqrtFn : ℚ → ℚ) (s : GestureState) (pid : Nat) :
    (runEvents sqrtFn initialGestureState pinchTrace).lastDist = none ∧
    (runEvents sqrtFn initialGestureState
        (pinchTrace ++ [.pointerMove 3 50 0])).transform = initialTransform ∧
    (runEvents sqrtFn initialGestureState
        (pinchTrace ++ [.pointerMove 3 50 0])).lastDist =
      some (sqrtFn (50 ^ 2)) ∧
    (handlePointerUp s pid).lastDist =
      (if (cacheDelete s.pointerCache pid).length < 2 then none
       else s.lastDist) := by
  refine ⟨?_, ?_, ?_, rfl⟩ <;>
    norm_num [pinchTrace, runEvents, step, handlePointerDown,
      handlePointerMove, handlePointerUp, handleWheel, cacheSet, cacheDelete,
      initialGestureState, initialTransform]

/-- C9: a single-pointer move pans by exactly the pointer delta and does
not change scale; a two-pointer move never changes the pan offset; a
wheel event never changes the pan offset. -/
theorem move_frame_effect (sqrtFn : ℚ → ℚ) (s : GestureState) (pid : Nat)
    (ex ey dY : ℚ) (lp : ℚ × ℚ) :
    ((cacheSet s.pointerCache pid ex ey).length = 1 →
      s.lastPoint = some lp →
      (handlePointerMove sqrtFn s pid ex ey).transform.x =
          s.transform.x + (ex - lp.1) ∧
      (handlePointerMove sqrtFn s pid ex ey).transform.y =
          s.transform.y + (ey - lp.2) ∧
      (handlePointerMove sqrtFn s pid ex ey).transform.scale =
          s.transform.scale) ∧
    ((cacheSet s.pointerCache pid ex ey).length = 2 →
      (handlePointerMove sqrtFn s pid ex ey).transform.x = s.transform.x ∧
      (handlePointerMove sqrtFn s pid ex ey).transform.y = s.transform.y) ∧
    ((handleWheel s dY).transform.x = s.transform.x ∧
      (handleWheel s dY).transform.y = s.transform.y) := by
  refine ⟨fun h1 h2 => ?_, fun h3 => ?_, by simp [handleWheel]⟩
  · simp [handlePointerMove, h1, h2]
  · obtain ⟨a, b, hc⟩ := List.length_eq_two.mp h3
    cases hld : s.lastDist <;> simp [handlePointerMove, hc, hld]

/-! ## Structural induction principles for the nested tree types -/

theorem idNodeInduction (P : IdNode → Prop)
    (h : ∀ id label children,
      (∀ c ∈ children, P c) → P (.node id label children)) :
    ∀ t, P t
  | .node i l cs => h i l cs (fun c _ => idNodeInduction P h c)
termination_by t => sizeOf t
decreasing_by
  have := List.sizeOf_lt_of_mem (by assumption : c ∈ cs)
  simp; omega

theorem mindMapNodeInduction (P : MindMapNode → Prop)
    (h : ∀ label children,
      (∀ c ∈ children, P c) → P (.node label children)) :
    ∀ t, P t
  | .node l cs => h l cs (fun c _ => mindMapNodeInduction P h c)
termination_by t => sizeOf t
decreasing_by
  have := List.sizeOf_lt_of_mem (by assumption : c ∈ cs)
  simp; omega

theorem posNodeInduction (P : PosNode → Prop)
    (h : ∀ i l x y hc ic kids,
      (∀ k ∈ kids, P k) → P (.mk i l x y hc ic kids)) :
    ∀ t, P t
  | .mk i l x y hc ic kids =>
      h i l x y hc ic kids (fun k _ => posNodeInduction P h k)
termination_by t => sizeOf t
decreasing_by
  have := List.sizeOf_lt_of_mem (by assumption : k ∈ kids)
  simp; omega

/-! ## Small facts about the derived notions -/

theorem mem_subnodesList {q : PosNode} {l : List PosNode} :
    q ∈ subnodesList l ↔ ∃ p ∈ l, q ∈ subnodes p := by
  induction l with
  | nil => simp [subnodesList]
  | cons k ks ih => simp [subnodesList, ih]

theorem self_mem_subnodes (p : PosNode) : p ∈ subnodes p := by
  cases p with
  | mk i l x y hc ic kids => simp [subnodes]

theorem lastLeafYList_getLast {l : List PosNode} {k : PosNode}
    (h : l.getLast? = some k) : ∀ y, lastLeafYList y l = lastLeafY k := by
  induction l with
  | nil => simp at h
  | cons a as ih =>
      intro y
      cases as with
      | nil =>
          simp at h
          subst h
          simp [lastLeafYList]
      | cons b bs =>
          rw [List.getLast?_cons_cons] at h
          simpa [lastLeafYList] using ih h 0

theorem subnodes_unfold (i l : String) (x y : ℚ) (hc ic : Bool)
    (kids : List PosNode) :
    subnodes (.mk i l x y hc ic kids) =
      .mk i l x y hc ic kids :: subnodesList kids := by
  simp [subnodes]

/-! ## The layout span invariant -/

theorem calcPosList_span (S : Finset String) (d : Nat) :
    ∀ (cs : List IdNode), (∀ c ∈ cs, spanOk S c) → ∀ (y0 : ℚ),
      y0 ≤ (calcPosList S cs d y0).2 ∧
      ((calcPosList S cs d y0).1 = [] ↔ cs = []) ∧
      (cs ≠ [] →
        y0 + (nodeHeight + verticalGap) ≤ (calcPosList S cs d y0).2) ∧
      (∀ p₁, (calcPosList S cs d y0).1.head? = some p₁ →
        firstLeafY p₁ = y0) ∧
      (∀ pn, (calcPosList S cs d y0).1.getLast? = some pn →
        lastLeafY pn = (calcPosList S cs d y0).2 - (nodeHeight + verticalGap)) ∧
      (∀ p ∈ (calcPosList S cs d y0).1,
        y0 ≤ p.y ∧
          p.y ≤ (calcPosList S cs d y0).2 - (nodeHeight + verticalGap)) ∧
      List.Pairwise (fun a b => a.y + (nodeHeight + verticalGap) ≤ b.y)
        (calcPosList S cs d y0).1 ∧
      (∀ p ∈ (calcPosList S cs d y0).1, ∀ q ∈ subnodes p,
        (y0 ≤ q.y ∧
          q.y ≤ (calcPosList S cs d y0).2 - (nodeHeight + verticalGap)) ∧
        nodeGood q) := by
  intro cs
  induction cs with
  | nil =>
      intro _ y0
      simp [calcPosList]
  | cons c cs ih =>
      intro hIH y0
      obtain ⟨hcur, hfirst, hlast, hsub⟩ :=
        hIH c (List.mem_cons_self c cs) d y0
      obtain ⟨m1, m2, m3, m4, m5, m6, m7, m8⟩ :=
        ih (fun x hx => hIH x (List.mem_cons_of_mem c hx))
          ((calculatePositions S c d y0).2)
      have hself := hsub _ (self_mem_subnodes (calculatePositions S c d y0).1)
      have hg : (0 : ℚ) ≤ nodeHeight + verticalGap := by
        norm_num [nodeHeight, verticalGap]
      simp only [calcPosList]
      refine ⟨by linarith, by simp, fun _ => by linarith, ?_, ?_, ?_, ?_, ?_⟩
      · intro p₁ hp₁
        simp only [List.head?_cons, Option.some.injEq] at hp₁
        exact hp₁ ▸ hfirst
      · intro pn hpn
        cases hrs : (calcPosList S cs d (calculatePositions S c d y0).2).1 with
        | nil =>
            have hcs : cs = [] := m2.mp hrs
            subst hcs
            simp only [hrs, List.getLast?_singleton, Option.some.injEq] at hpn
            subst hpn
            simpa [calcPosList] using hlast
        | cons k ks =>
            rw [hrs] at hpn
            rw [List.getLast?_cons_cons] at hpn
            rw [← hrs] at hpn
            exact m5 pn hpn
      · intro p hp
        rcases List.mem_cons.mp hp with rfl | hp
        · exact ⟨hself.1.1, by linarith [hself.1.2]⟩
        · have := m6 p hp
          exact ⟨by linarith [this.1], this.2⟩
      · refine List.Pairwise.cons ?_ m7
        intro b hb
        have hb1 := (m6 b hb).1
        have := hself.1.2
        linarith
      · intro p hp q hq
        rcases List.mem_cons.mp hp with rfl | hp
        · have := hsub q hq
          exact ⟨⟨this.1.1, by linarith [this.1.2]⟩, this.2⟩
        · have := m8 p hp q hq
          exact ⟨⟨by linarith [this.1.1], this.1.2⟩, this.2⟩

theorem calcPos_span (S : Finset String) : ∀ t : IdNode, spanOk S t := by
  intro t
  induction t using idNodeInduction with
  | _ i l cs IH =>
      intro d y0
      have hg : (0 : ℚ) ≤ nodeHeight + verticalGap := by
        norm_num [nodeHeight, verticalGap]
      by_cases hcol : cs.isEmpty = true ∨ i ∈ S
      · simp only [calculatePositions, if_pos hcol]
        refine ⟨le_refl _, by simp [firstLeafY], ?_, ?_⟩
        · simp [lastLeafY, lastLeafYList]
        · intro q hq
          simp only [subnodes_unfold, subnodesList, List.mem_singleton] at hq
          subst hq
          refine ⟨⟨by simp [PosNode.y], by simp [PosNode.y]⟩, ?_, ?_, ?_, ?_, ?_, ?_⟩
          · intro h1 h2
            rcases hcol with hcol | hcol
            · simp [PosNode.hasChildren, hcol] at h1
            · simp [PosNode.isCollapsed, hcol] at h2
          · simp [PosNode.childrenNodes]
          · simp [PosNode.childrenNodes]
          · simp only [PosNode.x, horizontalGap]
            positivity
          · simp [firstLeafY, PosNode.y]
          · simp [lastLeafY, lastLeafYList, PosNode.y]
      · have hcol' := hcol
        push_neg at hcol'
        obtain ⟨hne, hmem⟩ := hcol'
        have hcs : cs ≠ [] := by
          intro h
          exact hne (by simp [h])
        obtain ⟨L1, L2, L3, L4, L5, L6, L7, L8⟩ :=
          calcPosList_span S (d + 1) cs IH y0
        have hcur := L3 hcs
        have hrsne : (calcPosList S cs (d + 1) y0).1 ≠ [] :=
          fun h => hcs (L2.mp h)
        obtain ⟨k, ks, hk⟩ := List.exists_cons_of_ne_nil hrsne
        have hfirstk : firstLeafY k = y0 := L4 k (by rw [hk]; rfl)
        have hglast : ((k :: ks).getLast? = some ((k :: ks).getLast (by simp))) :=
          List.getLast?_eq_getLast _ (by simp)
        have hlastk : lastLeafY ((k :: ks).getLast (by simp)) =
            (calcPosList S cs (d + 1) y0).2 - (nodeHeight + verticalGap) :=
          L5 _ (by rw [hk]; exact hglast)
        simp only [calculatePositions, if_neg hcol]
        refine ⟨hcur, ?_, ?_, ?_⟩
        · rw [hk]
          simp [firstLeafY, hfirstk]
        · rw [hk]
          simp only [lastLeafY]
          rw [lastLeafYList_getLast hglast]
          exact hlastk
        · intro q hq
          rw [hk] at hq
          simp only [subnodes_unfold] at hq
          rcases List.mem_cons.mp hq with rfl | hq
          · constructor
            · constructor
              · simp only [PosNode.y]
                linarith
              · simp only [PosNode.y]
                linarith
            · refine ⟨?_, ?_, ?_, ?_, ?_, ?_⟩
              · intro _ _
                simp only [PosNode.y]
                rw [show firstLeafY (PosNode.mk i l ((d : ℚ) * horizontalGap)
                      ((y0 + ((calcPosList S cs (d + 1) y0).2 -
                        (nodeHeight + verticalGap))) / 2) (!cs.isEmpty)
                      (decide (i ∈ S)) (k :: ks)) = firstLeafY k from by
                    simp [firstLeafY]]
                rw [hfirstk]
                rw [show lastLeafY (PosNode.mk i l ((d : ℚ) * horizontalGap)
                      ((y0 + ((calcPosList S cs (d + 1) y0).2 -
                        (nodeHeight + verticalGap))) / 2) (!cs.isEmpty)
                      (decide (i ∈ S)) (k :: ks)) =
                    (calcPosList S cs (d + 1) y0).2 -
                      (nodeHeight + verticalGap) from by
                  simp only [lastLeafY]
                  rw [lastLeafYList_getLast hglast]
                  exact hlastk]
              · simpa [PosNode.childrenNodes, hk] using L7
              · intro hic
                simp [PosNode.isCollapsed, hmem] at hic
              · simp only [PosNode.x, horizontalGap]
                positivity
              · rw [show firstLeafY (PosNode.mk i l ((d : ℚ) * horizontalGap)
                      ((y0 + ((calcPosList S cs (d + 1) y0).2 -
                        (nodeHeight + verticalGap))) / 2) (!cs.isEmpty)
                      (decide (i ∈ S)) (k :: ks)) = firstLeafY k from by
                    simp [firstLeafY]]
                rw [hfirstk]
                simp only [PosNode.y]
                linarith
              · rw [show lastLeafY (PosNode.mk i l ((d : ℚ) * horizontalGap)
                      ((y0 + ((calcPosList S cs (d + 1) y0).2 -
                        (nodeHeight + verticalGap))) / 2) (!cs.isEmpty)
                      (decide (i ∈ S)) (k :: ks)) =
                    (calcPosList S cs (d + 1) y0).2 -
                      (nodeHeight + verticalGap) from by
                  simp only [lastLeafY]
                  rw [lastLeafYList_getLast hglast]
                  exact hlastk]
                simp only [PosNode.y]
                linarith
          · rw [← hk] at hq
            obtain ⟨p, hp, hqp⟩ := mem_subnodesList.mp hq
            exact L8 p hp q hqp

/-! ## Flatten lemmas -/

theorem mem_flattenList {m : LayoutNode} :
    ∀ {l : List PosNode} {a b : Option ℚ},
      m ∈ flattenList l a b ↔ ∃ k ∈ l, m ∈ flatten k a b := by
  intro l
  induction l with
  | nil => simp [flattenList]
  | cons k ks ih => intro a b; simp [flattenList, ih]

theorem mem_flatten_exists (p : PosNode) : ∀ (a b : Option ℚ),
    ∀ m ∈ flatten p a b,
      ∃ q ∈ subnodes p, m.x = q.x ∧ m.y = q.y ∧ m.id = q.id := by
  induction p using posNodeInduction with
  | _ i l x y hc ic kids IH =>
      intro a b m hm
      simp only [flatten] at hm
      rcases List.mem_cons.mp hm with rfl | hm
      · exact ⟨.mk i l x y hc ic kids, self_mem_subnodes _, rfl, rfl, rfl⟩
      · cases hic : ic with
        | true => rw [hic] at hm; simp at hm
        | false =>
            rw [hic] at hm
            simp only [Bool.false_eq_true, if_false] at hm
            obtain ⟨k, hk, hmk⟩ := mem_flattenList.mp hm
            obtain ⟨q, hq, hx, hy, hid⟩ := IH k hk _ _ m hmk
            refine ⟨q, ?_, hx, hy, hid⟩
            rw [subnodes_unfold]
            exact List.mem_cons_of_mem _ (mem_subnodesList.mpr ⟨k, hk, hq⟩)

theorem nodes_head (data : MindMapNode) (S : Finset String) :
    ∃ r rest, nodes data S = r :: rest ∧ r.x = 0 ∧ r.id = "root" := by
  cases data with
  | node l cs =>
      simp only [nodes, posTree, addId]
      by_cases h : (addIdList cs "root" 0).isEmpty = true ∨ "root" ∈ S
      · simp only [calculatePositions, if_pos h, flatten]
        exact ⟨_, _, rfl, by norm_num, rfl⟩
      · simp only [calculatePositions, if_neg h, flatten]
        exact ⟨_, _, rfl, by norm_num, rfl⟩

/-! ## Claims about the layout geometry -/

/-- C1 (amended): for every tree and collapse set, an emitted node that
has children and is not collapsed sits at the average of the y of the
first and the last leaf-for-layout row of its subtree (the midpoint of
the vertical cursor span its children consumed), not in general at the
average of the y of its first and last child. -/
theorem parent_centering_leaf_span (data : MindMapNode) (S : Finset String)
    (q : PosNode) (hq : q ∈ subnodes (posTree data S))
    (h1 : q.hasChildren = true) (h2 : q.isCollapsed = false) :
    q.y = (firstLeafY q + lastLeafY q) / 2 := by
  have h := (calcPos_span S (addId data "root") 0 0).2.2.2 q hq
  exact h.2.1 h1 h2

/-- C1 (counterexample): in the concrete tree whose first child is
itself a parent, the root sits at y = 80 while the average of its first
and last child rows is (40 + 160) / 2 = 100, so the centering claim as
stated by the specification fails. -/
theorem claimedCentering_cex : ¬ claimedCentering cexTree ∅ := by
  intro h
  have h2 := h (posTree cexTree ∅) (self_mem_subnodes _)
  have hhc : (posTree cexTree ∅).hasChildren = true := by
    norm_num [posTree, cexTree, calculatePositions, calcPosList, addId,
      addIdList, PosNode.hasChildren]
  have hic : (posTree cexTree ∅).isCollapsed = false := by
    norm_num [posTree, cexTree, calculatePositions, calcPosList, addId,
      addIdList, PosNode.isCollapsed]
  have hy : (posTree cexTree ∅).y = 80 := by
    norm_num [posTree, cexTree, calculatePositions, calcPosList, addId,
      addIdList, nodeHeight, verticalGap, PosNode.y]
  have hh : ((posTree cexTree ∅).childrenNodes.head?.map PosNode.y) =
      some 40 := by
    norm_num [posTree, cexTree, calculatePositions, calcPosList, addId,
      addIdList, nodeHeight, verticalGap, PosNode.childrenNodes, PosNode.y]
  have hl : ((posTree cexTree ∅).childrenNodes.getLast?.map PosNode.y) =
      some 160 := by
    norm_num [posTree, cexTree, calculatePositions, calcPosList, addId,
      addIdList, nodeHeight, verticalGap, PosNode.childrenNodes, PosNode.y]
  cases hc1 : (posTree cexTree ∅).childrenNodes.head? with
  | none => rw [hc1] at hh; simp at hh
  | some c₁ =>
      cases hcn : (posTree cexTree ∅).childrenNodes.getLast? with
      | none => rw [hcn] at hl; simp at hl
      | some cn =>
          rw [hc1] at hh
          rw [hcn] at hl
          simp only [Option.map_some', Option.some.injEq] at hh hl
          have := h2 hhc hic c₁ cn hc1 hcn
          rw [hy, hh, hl] at this
          norm_num at this

/-- C2: for every tree and collapse set and every emitted node, the
vertical ranges [y, y + nodeHeight] of its rendered children (its
childrenNodes list, which is empty when the node is collapsed) are
pairwise disjoint in traversal order. -/
theorem sibling_ranges_disjoint (data : MindMapNode) (S : Finset String)
    (q : PosNode) (hq : q ∈ subnodes (posTree data S)) :
    List.Pairwise
      (fun a b =>
        Set.Icc a.y (a.y + nodeHeight) ∩ Set.Icc b.y (b.y + nodeHeight) = ∅)
      q.childrenNodes := by
  have h := ((calcPos_span S (addId data "root") 0 0).2.2.2 q hq).2.2.1
  refine h.imp ?_
  intro a b hab
  apply Set.eq_empty_iff_forall_not_mem.mpr
  intro t ht
  obtain ⟨⟨_, ha2⟩, ⟨hb1, _⟩⟩ := ht
  have hn : nodeHeight = (50 : ℚ) := by norm_num [nodeHeight]
  have hv : verticalGap = (30 : ℚ) := by norm_num [verticalGap]
  rw [hn, hv] at hab
  rw [hn] at ha2
  linarith

/-- C10: every emitted node has nonnegative x and y; the first emitted
node is the root with x = 0; the vertical cursor never decreases; and an
expanded parent sits between the first and last leaf rows of its
subtree. -/
theorem layout_nonneg (data : MindMapNode) (S : Finset String)
    (m : LayoutNode) (hm : m ∈ nodes data S) :
    (0 ≤ m.x ∧ 0 ≤ m.y) ∧
    (∃ r rest, nodes data S = r :: rest ∧ r.x = 0) ∧
    (∀ (t : IdNode) (d : Nat) (y0 : ℚ),
      y0 ≤ (calculatePositions S t d y0).2) ∧
    (∀ q ∈ subnodes (posTree data S),
      firstLeafY q ≤ q.y ∧ q.y ≤ lastLeafY q) := by
  have hg : (0 : ℚ) ≤ nodeHeight + verticalGap := by
    norm_num [nodeHeight, verticalGap]
  refine ⟨?_, ?_, ?_, ?_⟩
  · obtain ⟨q, hq, hx, hy, _⟩ := mem_flatten_exists (posTree data S) _ _ m hm
    have h := (calcPos_span S (addId data "root") 0 0).2.2.2 q hq
    refine ⟨?_, ?_⟩
    · rw [hx]
      exact h.2.2.2.2.1
    · rw [hy]
      exact h.1.1
  · obtain ⟨r, rest, hr, hx, _⟩ := nodes_head data S
    exact ⟨r, rest, hr, hx⟩
  · intro t d y0
    have := (calcPos_span S t d y0).1
    linarith
  · intro q hq
    have h := (calcPos_span S (addId data "root") 0 0).2.2.2 q hq
    exact ⟨h.2.2.2.2.2.1, h.2.2.2.2.2.2⟩

/-- C4: toggling a node id twice restores the collapse set, hence the
layout output sequence is the one computed from the original set. -/
theorem toggle_toggle_id (data : MindMapNode) (S : Finset String)
    (id : String) :
    nodes data (toggleNode (toggleNode S id) id) = nodes data S := by
  have h : toggleNode (toggleNode S id) id = S := by
    unfold toggleNode
    by_cases h : id ∈ S
    · rw [if_pos h, if_neg (Finset.not_mem_erase id S),
        Finset.insert_erase h]
    · rw [if_neg h, if_pos (Finset.mem_insert_self id S),
        Finset.erase_insert h]
  rw [h]

/-! ## Stale collapse entries -/

theorem mem_allIdsList {x : String} :
    ∀ {l : List IdNode}, x ∈ allIdsList l ↔ ∃ c ∈ l, x ∈ allIds c := by
  intro l
  induction l with
  | nil => simp [allIdsList]
  | cons c cs ih => simp [allIdsList, ih]

theorem calcPos_stale (S : Finset String) (v : String) :
    ∀ t : IdNode, v ∉ allIds t → ∀ (d : Nat) (y0 : ℚ),
      calculatePositions (insert v S) t d y0 = calculatePositions S t d y0 := by
  intro t
  induction t using idNodeInduction with
  | _ i l cs IH =>
      intro hv d y0
      simp only [allIds, List.mem_cons, not_or] at hv
      obtain ⟨hvi, hvl⟩ := hv
      have hmem : (i ∈ insert v S) ↔ (i ∈ S) := by
        rw [Finset.mem_insert]
        constructor
        · rintro (h | h)
          · exact absurd h.symm hvi
          · exact h
        · exact Or.inr
      have hlist : ∀ (l' : List IdNode),
          (∀ c ∈ l', ∀ (d' : Nat) (y0' : ℚ),
            calculatePositions (insert v S) c d' y0' =
              calculatePositions S c d' y0') →
          ∀ (d' : Nat) (y0' : ℚ),
            calcPosList (insert v S) l' d' y0' = calcPosList S l' d' y0' := by
        intro l'
        induction l' with
        | nil => intro _ d' y0'; simp [calcPosList]
        | cons c cs' ih =>
            intro hl d' y0'
            simp only [calcPosList]
            rw [hl c (List.mem_cons_self c cs'),
              ih (fun x hx => hl x (List.mem_cons_of_mem c hx))]
      have hchild : ∀ c ∈ cs, ∀ (d' : Nat) (y0' : ℚ),
          calculatePositions (insert v S) c d' y0' =
            calculatePositions S c d' y0' := by
        intro c hc
        exact IH c hc (fun hin => hvl (mem_allIdsList.mpr ⟨c, hc, hin⟩))
      simp only [calculatePositions, hmem, hlist cs hchild]

/-- C8: a collapse-set entry whose id does not occur in the identified
tree has no effect on the layout output. -/
theorem stale_id_harmless (data : MindMapNode) (S : Finset String)
    (id : String) (h : id ∉ allIds (addId data "root")) :
    nodes data (insert id S) = nodes data S := by
  unfold nodes posTree
  rw [calcPos_stale S id _ h 0 0]

/-! ## Emitted ids and collapse counting -/

theorem mem_visibleIdsList {S : Finset String} {x : String} :
    ∀ {l : List IdNode}, x ∈ visibleIdsList S l ↔ ∃ c ∈ l, x ∈ visibleIds S c := by
  intro l
  induction l with
  | nil => simp [visibleIdsList]
  | cons c cs ih => simp [visibleIdsList, ih]

theorem mem_subtreesList {sub : IdNode} :
    ∀ {l : List IdNode}, sub ∈ subtreesList l ↔ ∃ c ∈ l, sub ∈ subtreesOf c := by
  intro l
  induction l with
  | nil => simp [subtreesList]
  | cons c cs ih => simp [subtreesList, ih]

theorem self_mem_subtreesOf (t : IdNode) : t ∈ subtreesOf t := by
  cases t with
  | node i l cs => simp [subtreesOf]

theorem rootId_mem_visibleIds (S : Finset String) (t : IdNode) :
    t.rootId ∈ visibleIds S t := by
  cases t with
  | node i l cs => simp [visibleIds, IdNode.rootId]

theorem rootId_mem_allIds_of_subtree :
    ∀ t : IdNode, ∀ sub ∈ subtreesOf t, sub.rootId ∈ allIds t := by
  intro t
  induction t using idNodeInduction with
  | _ i l cs IH =>
      intro sub hsub
      simp only [subtreesOf, List.mem_cons] at hsub
      rcases hsub with rfl | hsub
      · simp [allIds, IdNode.rootId]
      · obtain ⟨c, hc, hsc⟩ := mem_subtreesList.mp hsub
        simp only [allIds, List.mem_cons]
        exact Or.inr (mem_allIdsList.mpr ⟨c, hc, IH c hc sub hsc⟩)

theorem visibleIds_subset_allIds (S : Finset String) :
    ∀ t : IdNode, ∀ x ∈ visibleIds S t, x ∈ allIds t := by
  intro t
  induction t using idNodeInduction with
  | _ i l cs IH =>
      intro x hx
      simp only [visibleIds, List.mem_cons] at hx
      simp only [allIds, List.mem_cons]
      rcases hx with rfl | hx
      · exact Or.inl rfl
      · by_cases hi : i ∈ S
        · rw [if_pos hi] at hx
          simp at hx
        · rw [if_neg hi] at hx
          obtain ⟨c, hc, hxc⟩ := mem_visibleIdsList.mp hx
          exact Or.inr (mem_allIdsList.mpr ⟨c, hc, IH c hc x hxc⟩)

theorem visibleIds_stale (S : Finset String) (v : String) :
    ∀ t : IdNode, v ∉ allIds t →
      visibleIds (insert v S) t = visibleIds S t := by
  intro t
  induction t using idNodeInduction with
  | _ i l cs IH =>
      intro hv
      simp only [allIds, List.mem_cons, not_or] at hv
      obtain ⟨hvi, hvl⟩ := hv
      have hmem : (i ∈ insert v S) ↔ (i ∈ S) := by
        rw [Finset.mem_insert]
        constructor
        · rintro (h | h)
          · exact absurd h.symm hvi
          · exact h
        · exact Or.inr
      have hlist : ∀ (l' : List IdNode),
          (∀ c ∈ l', visibleIds (insert v S) c = visibleIds S c) →
          visibleIdsList (insert v S) l' = visibleIdsList S l' := by
        intro l'
        induction l' with
        | nil => intro _; simp [visibleIdsList]
        | cons c cs' ih =>
            intro hl
            simp only [visibleIdsList]
            rw [hl c (List.mem_cons_self c cs'),
              ih (fun x hx => hl x (List.mem_cons_of_mem c hx))]
      have hchild : ∀ c ∈ cs, visibleIds (insert v S) c = visibleIds S c :=
        fun c hc => IH c hc (fun hin => hvl (mem_allIdsList.mpr ⟨c, hc, hin⟩))
      simp only [visibleIds, hmem, hlist cs hchild]

theorem flatten_map_id (S : Finset String) :
    ∀ t : IdNode, ∀ (d : Nat) (y0 : ℚ) (a b : Option ℚ),
      (flatten (calculatePositions S t d y0).1 a b).map LayoutNode.id =
        visibleIds S t := by
  intro t
  induction t using idNodeInduction with
  | _ i l cs IH =>
      intro d y0 a b
      by_cases hcol : cs.isEmpty = true ∨ i ∈ S
      · simp only [calculatePositions, if_pos hcol, flatten]
        rcases hcol with hcol | hcol
        · have hcs : cs = [] := by simpa [List.isEmpty_iff] using hcol
          subst hcs
          cases hd : decide (i ∈ S) <;>
            simp [visibleIds, visibleIdsList, flattenList]
        · simp [visibleIds, hcol, flattenList]
      · have hcol' := hcol
        push_neg at hcol'
        obtain ⟨hne, hmem⟩ := hcol'
        have hlist : ∀ (l' : List IdNode),
            (∀ c ∈ l', ∀ (d' : Nat) (y0' : ℚ) (a' b' : Option ℚ),
              (flatten (calculatePositions S c d' y0').1 a' b').map
                  LayoutNode.id = visibleIds S c) →
            ∀ (d' : Nat) (y0' : ℚ) (a' b' : Option ℚ),
              (flattenList (calcPosList S l' d' y0').1 a' b').map
                  LayoutNode.id = visibleIdsList S l' := by
          intro l'
          induction l' with
          | nil => intro _ d' y0' a' b'; simp [calcPosList, flattenList,
              visibleIdsList]
          | cons c cs' ih =>
              intro hl d' y0' a' b'
              simp only [calcPosList, flattenList, visibleIdsList,
                List.map_append]
              rw [hl c (List.mem_cons_self c cs'),
                ih (fun x hx => hl x (List.mem_cons_of_mem c hx))]
        simp only [calculatePositions, if_neg hcol, flatten]
        have hd : decide (i ∈ S) = false := by simp [hmem]
        rw [hd]
        simp only [Bool.false_eq_true, if_false, List.map_cons,
          visibleIds, if_neg hmem]
        rw [hlist cs IH]

theorem nodes_map_id (data : MindMapNode) (S : Finset String) :
    (nodes data S).map LayoutNode.id = visibleIds S (addId data "root") := by
  unfold nodes posTree
  exact flatten_map_id S (addId data "root") 0 0 none none

theorem visibleIdsList_stale (S : Finset String) (v : String) :
    ∀ l : List IdNode, v ∉ allIdsList l →
      visibleIdsList (insert v S) l = visibleIdsList S l := by
  intro l
  induction l with
  | nil => intro _; rfl
  | cons c cs ih =>
      intro hv
      simp only [allIdsList, List.mem_append, not_or] at hv
      simp only [visibleIdsList]
      rw [visibleIds_stale S v c hv.1, ih hv.2]

theorem collapse_count (S : Finset String) :
    ∀ t : IdNode, (allIds t).Nodup → ∀ sub ∈ subtreesOf t,
      sub.rootId ∈ visibleIds S t →
      (visibleIds (insert sub.rootId S) t).length +
          (visibleIds S sub).length = (visibleIds S t).length + 1 ∧
      sub.rootId ∈ visibleIds (insert sub.rootId S) t := by
  intro t
  induction t using idNodeInduction with
  | _ i l cs IH =>
      intro hnd sub hsub hvis
      simp only [subtreesOf, List.mem_cons] at hsub
      simp only [allIds, List.nodup_cons] at hnd
      obtain ⟨hni, hndl⟩ := hnd
      rcases hsub with rfl | hsub
      · -- collapsing the root of this subtree
        have hroot : (IdNode.node i l cs).rootId = i := rfl
        rw [hroot] at hvis ⊢
        have hv : visibleIds (insert i S) (IdNode.node i l cs) = [i] := by
          simp [visibleIds, Finset.mem_insert_self]
        rw [hv]
        exact ⟨by simp; omega, by simp⟩
      · -- collapsing a node strictly below the root
        obtain ⟨c, hc, hsc⟩ := mem_subtreesList.mp hsub
        have hvall : sub.rootId ∈ allIdsList cs :=
          mem_allIdsList.mpr ⟨c, hc, rootId_mem_allIds_of_subtree c sub hsc⟩
        have hvi : sub.rootId ≠ i := fun h => hni (h ▸ hvall)
        have hiS : i ∉ S := by
          intro hiS
          simp only [visibleIds, if_pos hiS, List.mem_cons,
            List.not_mem_nil, or_false] at hvis
          exact hvi hvis
        have hvlist : sub.rootId ∈ visibleIdsList S cs := by
          simp only [visibleIds, if_neg hiS, List.mem_cons] at hvis
          rcases hvis with h | h
          · exact absurd h hvi
          · exact h
        have hiIns : i ∉ insert sub.rootId S := by
          rw [Finset.mem_insert]
          rintro (h | h)
          · exact hvi h.symm
          · exact hiS h
        -- list-level induction over the children
        have hlist : ∀ (l' : List IdNode),
            (∀ c' ∈ l', (allIds c').Nodup → ∀ s' ∈ subtreesOf c',
              s'.rootId ∈ visibleIds S c' →
              (visibleIds (insert s'.rootId S) c').length +
                  (visibleIds S s').length =
                (visibleIds S c').length + 1 ∧
              s'.rootId ∈ visibleIds (insert s'.rootId S) c') →
            (allIdsList l').Nodup →
            ∀ s' ∈ subtreesList l', s'.rootId ∈ visibleIdsList S l' →
            (visibleIdsList (insert s'.rootId S) l').length +
                (visibleIds S s').length =
              (visibleIdsList S l').length + 1 ∧
            s'.rootId ∈ visibleIdsList (insert s'.rootId S) l' := by
          intro l'
          induction l' with
          | nil => intro _ _ s' hs'; simp [subtreesList] at hs'
          | cons c' cs' ih =>
              intro hIHl hndl' s' hs' hvl'
              simp only [allIdsList] at hndl'
              have hsplit := List.nodup_append.mp hndl'
              obtain ⟨hnd1, hnd2, hdisj⟩ := hsplit
              simp only [subtreesList, List.mem_append] at hs'
              rcases hs' with hs' | hs'
              · -- the collapsed node lies inside the first child
                have hrin : s'.rootId ∈ allIds c' :=
                  rootId_mem_allIds_of_subtree c' s' hs'
                have hnotr : s'.rootId ∉ allIdsList cs' := fun h =>
                  hdisj hrin h
                have hvc : s'.rootId ∈ visibleIds S c' := by
                  simp only [visibleIdsList, List.mem_append] at hvl'
                  rcases hvl' with h | h
                  · exact h
                  · refine absurd (mem_allIdsList.mpr ?_) hnotr
                    obtain ⟨c2, hc2, h2⟩ := mem_visibleIdsList.mp h
                    exact ⟨c2, hc2, visibleIds_subset_allIds S c2 _ h2⟩
                obtain ⟨e1, e2⟩ :=
                  hIHl c' (List.mem_cons_self c' cs') hnd1 s' hs' hvc
                simp only [visibleIdsList, List.length_append,
                  List.mem_append]
                rw [visibleIdsList_stale S s'.rootId cs' hnotr]
                exact ⟨by omega, Or.inl e2⟩
              · -- the collapsed node lies inside the remaining children
                have hrin : s'.rootId ∈ allIdsList cs' :=
                  mem_allIdsList.mpr (by
                    obtain ⟨c2, hc2, hsc2⟩ := mem_subtreesList.mp hs'
                    exact ⟨c2, hc2,
                      rootId_mem_allIds_of_subtree c2 s' hsc2⟩)
                have hnotc : s'.rootId ∉ allIds c' := fun h =>
                  hdisj h hrin
                have hvc : s'.rootId ∈ visibleIdsList S cs' := by
                  simp only [visibleIdsList, List.mem_append] at hvl'
                  rcases hvl' with h | h
                  · exact absurd (visibleIds_subset_allIds S _ _ h) hnotc
                  · exact h
                obtain ⟨e1, e2⟩ :=
                  ih (fun x hx => hIHl x (List.mem_cons_of_mem c' hx))
                    hnd2 s' hs' hvc
                simp only [visibleIdsList, List.length_append,
                  List.mem_append]
                rw [visibleIds_stale S s'.rootId c' hnotc]
                exact ⟨by omega, Or.inr e2⟩
        obtain ⟨e1, e2⟩ := hlist cs IH hndl sub hsub hvlist
        have hopen : visibleIds (insert sub.rootId S) (IdNode.node i l cs) =
            i :: visibleIdsList (insert sub.rootId S) cs := by
          simp [visibleIds, hiIns]
        have hopenS : visibleIds S (IdNode.node i l cs) =
            i :: visibleIdsList S cs := by
          simp [visibleIds, hiS]
        rw [hopen, hopenS]
        simp only [List.length_cons, List.mem_cons]
        exact ⟨by omega, Or.inr e2⟩

/-! ## The path identifiers assigned by addId are injective -/

theorem toDigitsCore_eq_dRepr :
    ∀ (f n : Nat) (ds : List Char), n < f →
      Nat.toDigitsCore 10 f n ds = dRepr n ++ ds := by
  intro f
  induction f with
  | zero => intro n ds h; omega
  | succ f ih =>
      intro n ds h
      simp only [Nat.toDigitsCore]
      by_cases hq : n / 10 = 0
      · rw [if_pos hq]
        by_cases hn : n = 0
        · subst hn
          have h1 : dRepr 0 = ['0'] := by decide
          have h2 : Nat.digitChar (0 % 10) = '0' := by decide
          rw [h1, h2]
          rfl
        · have hlt : n < 10 := by omega
          have hd : Nat.digits 10 n = [n] := by
            rw [Nat.digits_def' (by norm_num) (Nat.pos_of_ne_zero hn)]
            rw [Nat.mod_eq_of_lt hlt, hq]
            simp
          simp [dRepr, hn, hd]
          rw [Nat.mod_eq_of_lt hlt]
      · rw [if_neg hq]
        have hn : n ≠ 0 := by
          intro h0
          subst h0
          simp at hq
        have hge : 10 ≤ n := by
          by_contra hlt
          exact hq (Nat.div_eq_of_lt (by omega))
        have h1 : n / 10 < f := by
          have := Nat.div_lt_self (by omega : 0 < n) (by norm_num : 1 < 10)
          omega
        rw [ih (n / 10) (Nat.digitChar (n % 10) :: ds) h1]
        have hd : Nat.digits 10 n = n % 10 :: Nat.digits 10 (n / 10) :=
          Nat.digits_def' (by norm_num) (Nat.pos_of_ne_zero hn)
        simp only [dRepr, hn, if_false, hq, hd, List.map_cons,
          List.reverse_cons, List.append_assoc, List.cons_append,
          List.nil_append]

theorem repr_data (n : Nat) : (Nat.repr n).data = dRepr n := by
  show (Nat.toDigits 10 n).asString.data = dRepr n
  unfold Nat.toDigits
  rw [toDigitsCore_eq_dRepr (n + 1) n [] (by omega)]
  simp [List.asString]

theorem digitChar_ne_dash : ∀ a, a < 10 → Nat.digitChar a ≠ '-' := by decide

theorem digitChar_inj_below :
    ∀ a, a < 10 → ∀ b, b < 10 → Nat.digitChar a = Nat.digitChar b →
      a = b := by decide

theorem dRepr_ne_nil (n : Nat) : dRepr n ≠ [] := by
  unfold dRepr
  by_cases hn : n = 0
  · simp [hn]
  · simp only [hn, if_false]
    intro h
    rw [List.reverse_eq_nil_iff, List.map_eq_nil_iff] at h
    exact (Nat.digits_ne_nil_iff_ne_zero.mpr hn) h

theorem dRepr_no_dash (n : Nat) : ∀ c ∈ dRepr n, c ≠ '-' := by
  unfold dRepr
  by_cases hn : n = 0
  · subst hn
    decide
  · simp only [hn, if_false]
    intro c hc
    rw [List.mem_reverse] at hc
    obtain ⟨d, hd, rfl⟩ := List.mem_map.mp hc
    exact digitChar_ne_dash d (Nat.digits_lt_base (by norm_num) hd)

theorem map_digitChar_inj :
    ∀ (l1 l2 : List Nat), (∀ d ∈ l1, d < 10) → (∀ d ∈ l2, d < 10) →
      l1.map Nat.digitChar = l2.map Nat.digitChar → l1 = l2 := by
  intro l1
  induction l1 with
  | nil =>
      intro l2 _ _ h
      cases l2 with
      | nil => rfl
      | cons d rest => simp at h
  | cons d rest ih =>
      intro l2 h1 h2 h
      cases l2 with
      | nil => simp at h
      | cons d2 rest2 =>
          simp only [List.map_cons, List.cons.injEq] at h
          have hd := digitChar_inj_below d (h1 d (by simp))
            d2 (h2 d2 (by simp)) h.1
          rw [hd, ih rest2 (fun x hx => h1 x (by simp [hx]))
            (fun x hx => h2 x (by simp [hx])) h.2]

theorem dRepr_inj (a b : Nat) (h : dRepr a = dRepr b) : a = b := by
  unfold dRepr at h
  by_cases ha : a = 0 <;> by_cases hb : b = 0
  · omega
  · exfalso
    simp only [ha, if_true, hb, if_false] at h
    have hsingle : (Nat.digits 10 b).map Nat.digitChar = ['0'] := by
      have := congrArg List.reverse h
      simpa using this.symm
    have hb1 : Nat.digits 10 b = [0] := by
      cases hd : Nat.digits 10 b with
      | nil => rw [hd] at hsingle; simp at hsingle
      | cons d rest =>
          rw [hd] at hsingle
          simp only [List.map_cons, List.cons.injEq] at hsingle
          obtain ⟨h1, h2⟩ := hsingle
          rw [List.map_eq_nil_iff] at h2
          have hdlt : d < 10 :=
            Nat.digits_lt_base (by norm_num) (by rw [hd]; simp)
          have : d = 0 := by
            have h0 : Nat.digitChar 0 = '0' := by decide
            exact digitChar_inj_below d hdlt 0 (by norm_num) (h1.trans h0.symm)
          rw [h2, this]
    have := Nat.ofDigits_digits 10 b
    rw [hb1] at this
    simp [Nat.ofDigits] at this
    exact hb this.symm
  · exfalso
    simp only [ha, if_false, hb, if_true] at h
    have hsingle : (Nat.digits 10 a).map Nat.digitChar = ['0'] := by
      have := congrArg List.reverse h
      simpa using this
    have ha1 : Nat.digits 10 a = [0] := by
      cases hd : Nat.digits 10 a with
      | nil => rw [hd] at hsingle; simp at hsingle
      | cons d rest =>
          rw [hd] at hsingle
          simp only [List.map_cons, List.cons.injEq] at hsingle
          obtain ⟨h1, h2⟩ := hsingle
          rw [List.map_eq_nil_iff] at h2
          have hdlt : d < 10 :=
            Nat.digits_lt_base (by norm_num) (by rw [hd]; simp)
          have : d = 0 := by
            have h0 : Nat.digitChar 0 = '0' := by decide
            exact digitChar_inj_below d hdlt 0 (by norm_num) (h1.trans h0.symm)
          rw [h2, this]
    have := Nat.ofDigits_digits 10 a
    rw [ha1] at this
    simp [Nat.ofDigits] at this
    exact ha this.symm
  · simp only [ha, if_false, hb, if_false] at h
    have hmap : (Nat.digits 10 a).map Nat.digitChar =
        (Nat.digits 10 b).map Nat.digitChar :=
      List.reverse_injective h
    have hdig : Nat.digits 10 a = Nat.digits 10 b :=
      map_digitChar_inj _ _
        (fun d hd => Nat.digits_lt_base (by norm_num) hd)
        (fun d hd => Nat.digits_lt_base (by norm_num) hd) hmap
    calc a = Nat.ofDigits 10 (Nat.digits 10 a) :=
          (Nat.ofDigits_digits 10 a).symm
      _ = Nat.ofDigits 10 (Nat.digits 10 b) := by rw [hdig]
      _ = b := Nat.ofDigits_digits 10 b

theorem repr_inj (a b : Nat) (h : Nat.repr a = Nat.repr b) : a = b :=
  dRepr_inj a b (by rw [← repr_data, ← repr_data, h])

/-- Splitting a dash-free block followed by a dash-headed (or empty)
remainder is unambiguous. -/
theorem dash_split :
    ∀ (d1 d2 e1 e2 : List Char), (∀ c ∈ d1, c ≠ '-') →
      (∀ c ∈ d2, c ≠ '-') →
      (e1 = [] ∨ ∃ t, e1 = '-' :: t) → (e2 = [] ∨ ∃ t, e2 = '-' :: t) →
      d1 ++ e1 = d2 ++ e2 → d1 = d2 ∧ e1 = e2 := by
  intro d1
  induction d1 with
  | nil =>
      intro d2 e1 e2 h1 h2 g1 g2 heq
      cases d2 with
      | nil => exact ⟨rfl, heq⟩
      | cons c2 d2t =>
          exfalso
          rcases g1 with rfl | ⟨t, rfl⟩
          · simp at heq
          · simp only [List.nil_append, List.cons_append,
              List.cons.injEq] at heq
            exact h2 c2 (by simp) heq.1.symm
  | cons c1 d1t ih =>
      intro d2 e1 e2 h1 h2 g1 g2 heq
      cases d2 with
      | nil =>
          exfalso
          rcases g2 with rfl | ⟨t, rfl⟩
          · simp at heq
          · simp only [List.nil_append, List.cons_append,
              List.cons.injEq] at heq
            exact h1 c1 (by simp) heq.1
      | cons c2 d2t =>
          simp only [List.cons_append, List.cons.injEq] at heq
          obtain ⟨rfl, heq2⟩ := heq
          obtain ⟨hd, he⟩ := ih d2t e1 e2
            (fun c hc => h1 c (List.mem_cons_of_mem _ hc))
            (fun c hc => h2 c (List.mem_cons_of_mem _ hc)) g1 g2 heq2
          exact ⟨by rw [hd], he⟩

theorem encodeSuffix_shape (q : List Nat) :
    encodeSuffix q = [] ∨ ∃ t, encodeSuffix q = '-' :: t := by
  cases q with
  | nil => exact Or.inl rfl
  | cons i q => exact Or.inr ⟨_, rfl⟩

theorem encodeSuffix_inj :
    ∀ (q1 q2 : List Nat), encodeSuffix q1 = encodeSuffix q2 → q1 = q2 := by
  intro q1
  induction q1 with
  | nil =>
      intro q2 h
      cases q2 with
      | nil => rfl
      | cons j q2t => simp [encodeSuffix] at h
  | cons i q1t ih =>
      intro q2 h
      cases q2 with
      | nil => simp [encodeSuffix] at h
      | cons j q2t =>
          simp only [encodeSuffix, List.cons.injEq, true_and] at h
          obtain ⟨hd, he⟩ := dash_split (Nat.repr i).data (Nat.repr j).data
            (encodeSuffix q1t) (encodeSuffix q2t)
            (by rw [repr_data]; exact dRepr_no_dash i)
            (by rw [repr_data]; exact dRepr_no_dash j)
            (encodeSuffix_shape q1t) (encodeSuffix_shape q2t) h
          rw [repr_inj i j (String.ext hd), ih q2t he]

theorem pathId_data (q : List Nat) :
    ∀ p : String, (pathId p q).data = p.data ++ encodeSuffix q := by
  induction q with
  | nil => intro p; simp [pathId, encodeSuffix]
  | cons i qt ih =>
      intro p
      show (pathId (p ++ "-" ++ toString i) qt).data = _
      rw [ih (p ++ "-" ++ toString i)]
      simp only [String.data_append, encodeSuffix]
      have : toString i = Nat.repr i := rfl
      rw [this]
      simp

theorem pathId_inj (p : String) (q1 q2 : List Nat)
    (h : pathId p q1 = pathId p q2) : q1 = q2 := by
  have hd := congrArg String.data h
  rw [pathId_data q1 p, pathId_data q2 p] at hd
  exact encodeSuffix_inj q1 q2 (List.append_cancel_left hd)

theorem idAt_addId :
    ∀ t : MindMapNode, ∀ (p : String) (q : List Nat) (s : String),
      idAt (addId t p) q = some s → s = pathId p q := by
  intro t
  induction t using mindMapNodeInduction with
  | _ l cs IH =>
      intro p q s h
      have hlist : ∀ (l' : List MindMapNode),
          (∀ c ∈ l', ∀ (p' : String) (q' : List Nat) (s' : String),
            idAt (addId c p') q' = some s' → s' = pathId p' q') →
          ∀ (j k : Nat) (q' : List Nat) (s' : String),
            idAtList (addIdList l' p j) k q' = some s' →
            s' = pathId p ((j + k) :: q') := by
        intro l'
        induction l' with
        | nil => intro _ j k q' s' h'; simp [addIdList, idAtList] at h'
        | cons c cs' ih =>
            intro hl j k q' s' h'
            cases k with
            | zero =>
                simp only [addIdList, idAtList] at h'
                have := hl c (List.mem_cons_self c cs') _ _ _ h'
                simpa using this
            | succ k =>
                simp only [addIdList, idAtList] at h'
                have := ih (fun x hx => hl x (List.mem_cons_of_mem c hx))
                  (j + 1) k q' s' h'
                rw [this]
                have : j + 1 + k = j + (k + 1) := by omega
                rw [this]
      cases q with
      | nil =>
          simp only [addId, idAt, Option.some.injEq] at h
          rw [← h]
          rfl
      | cons k qt =>
          simp only [addId, idAt] at h
          have := hlist cs IH 0 k qt s h
          simpa using this

theorem idAt_shape :
    ∀ t1 t2 : MindMapNode, shape t1 = shape t2 →
      ∀ (p : String) (q : List Nat),
        idAt (addId t1 p) q = idAt (addId t2 p) q := by
  intro t1
  induction t1 using mindMapNodeInduction with
  | _ l1 cs1 IH =>
      intro t2 hs p q
      cases t2 with
      | node l2 cs2 =>
          simp only [shape, TreeShape.node.injEq] at hs
          have hlist : ∀ (a : List MindMapNode),
              (∀ c ∈ a, ∀ t2', shape c = shape t2' →
                ∀ (p' : String) (q' : List Nat),
                  idAt (addId c p') q' = idAt (addId t2' p') q') →
              ∀ (b : List MindMapNode), shapeList a = shapeList b →
              ∀ (j k : Nat) (q' : List Nat),
                idAtList (addIdList a p j) k q' =
                  idAtList (addIdList b p j) k q' := by
            intro a
            induction a with
            | nil =>
                intro _ b hb j k q'
                cases b with
                | nil => rfl
                | cons c2 cs2t => simp [shapeList] at hb
            | cons c1 cs1t ih =>
                intro hl b hb j k q'
                cases b with
                | nil => simp [shapeList] at hb
                | cons c2 cs2t =>
                    simp only [shapeList, List.cons.injEq] at hb
                    cases k with
                    | zero =>
                        simp only [addIdList, idAtList]
                        exact hl c1 (List.mem_cons_self c1 cs1t) c2 hb.1 _ q'
                    | succ k =>
                        simp only [addIdList, idAtList]
                        exact ih (fun x hx =>
                          hl x (List.mem_cons_of_mem c1 hx)) cs2t hb.2
                          (j + 1) k q'
          cases q with
          | nil => rfl
          | cons k qt =>
              simp only [addId, idAt]
              exact hlist cs1 IH cs2 hs 0 k qt

theorem allIdsList_addIdList :
    ∀ (l : List MindMapNode),
      (∀ c ∈ l, ∀ p : String,
        allIds (addId c p) = (pathsOf c).map (pathId p)) →
      ∀ (p : String) (j : Nat),
        allIdsList (addIdList l p j) = (pathsList l j).map (pathId p) := by
  intro l
  induction l with
  | nil => intro _ p j; rfl
  | cons c cs ih =>
      intro hl p j
      simp only [addIdList, allIdsList, pathsList, List.map_append]
      rw [hl c (List.mem_cons_self c cs),
        ih (fun x hx => hl x (List.mem_cons_of_mem c hx)) p (j + 1)]
      congr 1
      rw [List.map_map]
      apply List.map_congr_left
      intro q _
      rfl

theorem allIds_addId :
    ∀ t : MindMapNode, ∀ p : String,
      allIds (addId t p) = (pathsOf t).map (pathId p) := by
  intro t
  induction t using mindMapNodeInduction with
  | _ l cs IH =>
      intro p
      simp only [addId, allIds, pathsOf, List.map_cons]
      rw [allIdsList_addIdList cs IH p 0]
      rfl

theorem mem_pathsList_shape :
    ∀ (l : List MindMapNode) (j : Nat) (q : List Nat),
      q ∈ pathsList l j → ∃ i qt, q = i :: qt ∧ j ≤ i := by
  intro l
  induction l with
  | nil => intro j q h; simp [pathsList] at h
  | cons c cs ih =>
      intro j q h
      simp only [pathsList, List.mem_append, List.mem_map] at h
      rcases h with ⟨q', _, rfl⟩ | h
      · exact ⟨j, q', rfl, le_refl j⟩
      · obtain ⟨i, qt, rfl, hj⟩ := ih (j + 1) q h
        exact ⟨i, qt, rfl, by omega⟩

theorem pathsList_nodup :
    ∀ (l : List MindMapNode), (∀ c ∈ l, (pathsOf c).Nodup) →
      ∀ j : Nat, (pathsList l j).Nodup := by
  intro l
  induction l with
  | nil => intro _ j; simp [pathsList]
  | cons c cs ih =>
      intro hl j
      simp only [pathsList]
      apply List.Nodup.append
      · exact (hl c (List.mem_cons_self c cs)).map
          (fun a b h => by injection h)
      · exact ih (fun x hx => hl x (List.mem_cons_of_mem c hx)) (j + 1)
      · intro q hq1 hq2
        obtain ⟨q', _, rfl⟩ := List.mem_map.mp hq1
        obtain ⟨i, qt, he, hj⟩ := mem_pathsList_shape cs (j + 1) _ hq2
        simp only [List.cons.injEq] at he
        omega

theorem pathsOf_nodup : ∀ t : MindMapNode, (pathsOf t).Nodup := by
  intro t
  induction t using mindMapNodeInduction with
  | _ l cs IH =>
      simp only [pathsOf, List.nodup_cons]
      refine ⟨?_, pathsList_nodup cs IH 0⟩
      intro h
      obtain ⟨i, qt, he, _⟩ := mem_pathsList_shape cs 0 [] h
      simp at he

theorem allIds_addId_nodup (t : MindMapNode) (p : String) :
    (allIds (addId t p)).Nodup := by
  rw [allIds_addId t p]
  exact (pathsOf_nodup t).map (fun a b h => pathId_inj p a b h)

/-! ## Remaining claims -/

/-- C3: adding to the collapse set the id of a visible node removes from
the emitted sequence exactly the visible descendants of that node (the
visible nodes of its subtree minus the node itself), and the node is
still emitted. -/
theorem collapse_shrinks_output (data : MindMapNode) (S : Finset String)
    (sub : IdNode) (hsub : sub ∈ subtreesOf (addId data "root"))
    (hvis : sub.rootId ∈ visibleIds S (addId data "root")) :
    (nodes data S).length =
      (nodes data (insert sub.rootId S)).length +
        ((visibleIds S sub).length - 1) ∧
    sub.rootId ∈ (nodes data (insert sub.rootId S)).map LayoutNode.id := by
  obtain ⟨e1, e2⟩ := collapse_count S (addId data "root")
    (allIds_addId_nodup data "root") sub hsub hvis
  have hlen1 : (nodes data S).length =
      (visibleIds S (addId data "root")).length := by
    rw [← nodes_map_id data S, List.length_map]
  have hlen2 : (nodes data (insert sub.rootId S)).length =
      (visibleIds (insert sub.rootId S) (addId data "root")).length := by
    rw [← nodes_map_id data (insert sub.rootId S), List.length_map]
  have hpos : 1 ≤ (visibleIds S sub).length := by
    cases sub with
    | node i l cs => simp [visibleIds]
  refine ⟨by omega, ?_⟩
  rw [nodes_map_id]
  exact e2

/-- C7: ids are position based: two positions of the identified tree
carry the same id iff they are the same position, and the id at a
position depends only on the shape (and child order) of the source tree,
so re-running the assigner on a structurally unchanged tree yields
identical ids. -/
theorem identifier_position_based (d : MindMapNode) (q1 q2 : List Nat)
    (s1 s2 : String) (h1 : idAt (addId d "root") q1 = some s1)
    (h2 : idAt (addId d "root") q2 = some s2) :
    (s1 = s2 ↔ q1 = q2) ∧
    (∀ d2 : MindMapNode, shape d2 = shape d →
      idAt (addId d2 "root") q1 = some s1) := by
  have e1 := idAt_addId d "root" q1 s1 h1
  have e2 := idAt_addId d "root" q2 s2 h2
  refine ⟨⟨?_, ?_⟩, ?_⟩
  · intro h
    exact pathId_inj "root" q1 q2 (by rw [← e1, ← e2, h])
  · intro h
    subst h
    rw [h1, Option.some.injEq] at h2
    exact h2
  · intro d2 hs
    rw [idAt_shape d2 d hs "root" q1]
    exact h1

/-! ## Witnesses: the claim theorems applied at concrete inputs -/

theorem parent_centering_leaf_span_witness :
    (posTree cexTree ∅).y =
      (firstLeafY (posTree cexTree ∅) + lastLeafY (posTree cexTree ∅)) / 2 :=
  parent_centering_leaf_span cexTree ∅ (posTree cexTree ∅)
    (self_mem_subnodes _)
    (by norm_num [posTree, cexTree, calculatePositions, calcPosList,
      addId, addIdList, PosNode.hasChildren])
    (by norm_num [posTree, cexTree, calculatePositions, calcPosList,
      addId, addIdList, PosNode.isCollapsed])

theorem sibling_ranges_disjoint_witness :
    List.Pairwise
      (fun a b =>
        Set.Icc a.y (a.y + nodeHeight) ∩ Set.Icc b.y (b.y + nodeHeight) = ∅)
      (posTree cexTree ∅).childrenNodes :=
  sibling_ranges_disjoint cexTree ∅ (posTree cexTree ∅)
    (self_mem_subnodes _)

theorem collapse_shrinks_output_witness :
    (nodes cexTree ∅).length =
      (nodes cexTree (insert (addId cexTree "root").rootId ∅)).length +
        ((visibleIds ∅ (addId cexTree "root")).length - 1) ∧
    (addId cexTree "root").rootId ∈
      (nodes cexTree (insert (addId cexTree "root").rootId ∅)).map
        LayoutNode.id :=
  collapse_shrinks_output cexTree ∅ (addId cexTree "root")
    (self_mem_subtreesOf _) (rootId_mem_visibleIds ∅ _)

theorem identifier_position_based_witness :
    ("root-0" = "root-1" ↔ [0] = ([1] : List Nat)) ∧
    (∀ d2 : MindMapNode, shape d2 = shape cexTree →
      idAt (addId d2 "root") [0] = some "root-0") :=
  identifier_position_based cexTree [0] [1] "root-0" "root-1"
    (by decide) (by decide)

theorem stale_id_harmless_witness :
    nodes cexTree (insert "ghost" ∅) = nodes cexTree ∅ :=
  stale_id_harmless cexTree ∅ "ghost" (by decide)

theorem move_frame_effect_witness :
    ((handlePointerMove (fun q => q) dragState 1 3 4).transform.x =
        dragState.transform.x + (3 - 1) ∧
      (handlePointerMove (fun q => q) dragState 1 3 4).transform.y =
        dragState.transform.y + (4 - 2) ∧
      (handlePointerMove (fun q => q) dragState 1 3 4).transform.scale =
        dragState.transform.scale) ∧
    ((handlePointerMove (fun q => q) pinchState 2 50 0).transform.x =
        pinchState.transform.x ∧
      (handlePointerMove (fun q => q) pinchState 2 50 0).transform.y =
        pinchState.transform.y) ∧
    ((handleWheel dragState 7).transform.x = dragState.transform.x ∧
      (handleWheel dragState 7).transform.y = dragState.transform.y) := by
  refine ⟨?_, ?_, ?_⟩
  · exact (move_frame_effect (fun q => q) dragState 1 3 4 7 (1, 2)).1
      (by decide) rfl
  · exact (move_frame_effect (fun q => q) pinchState 2 50 0 7 (1, 2)).2.1
      (by decide)
  · exact (move_frame_effect (fun q => q) dragState 1 3 4 7 (1, 2)).2.2

theorem layout_nonneg_witness :
    ((0 : ℚ) ≤ (0 : ℚ) ∧ (0 : ℚ) ≤ (80 : ℚ)) ∧
    (∃ r rest, nodes cexTree ∅ = r :: rest ∧ r.x = 0) ∧
    (∀ (t : IdNode) (d : Nat) (y0 : ℚ),
      y0 ≤ (calculatePositions ∅ t d y0).2) ∧
    (∀ q ∈ subnodes (posTree cexTree ∅),
      firstLeafY q ≤ q.y ∧ q.y ≤ lastLeafY q) := by
  have h := layout_nonneg cexTree ∅
    { id := "root", label := "r", x := 0, y := 80, px := none, py := none,
      hasChildren := true, isCollapsed := false }
    (by norm_num [nodes, posTree, cexTree, calculatePositions, calcPosList,
      addId, addIdList, flatten, flattenList, nodeWidth, nodeHeight,
      verticalGap, horizontalGap])
  exact ⟨h.1, h.2.1, h.2.2.1, h.2.2.2⟩

end VoiceMindMap
